import Mathlib

/-!
Verification of the source-structure parser of `tk_utils_core`
(`tk_utils_core/core/codeparser/_parso.py`): the `ParsedFunc` /
`ParsedFuncCode` function slicer and the `ModuleDefs` module indexer.

The code walks concrete syntax trees produced by the third-party `parso`
parser.  We embed those trees shallowly: a tree is a rose tree whose leaves
carry a `parso` prefix (the whitespace/comments preceding the token) and a
token value, and whose inner nodes carry a type tag and children.  Python
strings are Lean `String`s, `None`-able values are `Option`s, raised
exceptions are `Except.error`, and the one unbounded `while` loop of the
code is modelled with explicit fuel so that divergence is expressible.
-/

set_option maxRecDepth 10000

/-- Model of a `parso` concrete-syntax-tree node.  A leaf carries its type
tag, its prefix string (whitespace and comments preceding the token, as in
`parso`), and its token value; an inner node carries its type tag and its
ordered children. -/
inductive PTree where
  | leaf (ptype : String) (pfx : String) (value : String)
  | node (ptype : String) (children : List PTree)
deriving Repr

/-- The `.type` tag of a node (`node.type` in `parso`). -/
def PTree.typeOf : PTree → String
  | .leaf t _ _ => t
  | .node t _ => t

/-- The `.children` list of a node; a leaf has none. -/
def PTree.childrenOf : PTree → List PTree
  | .leaf _ _ _ => []
  | .node _ cs => cs

/-- The `.value` of a leaf token; inner nodes have none (empty string). -/
def PTree.valueOf : PTree → String
  | .leaf _ _ v => v
  | .node _ _ => ""

mutual
/-- `node.get_code()` of `parso` (with `include_prefix=True`, the default):
the verbatim source text of the node, i.e. the concatenation over its
leaves of `prefix ++ value`. -/
def getCode : PTree → String
  | .leaf _ p v => p ++ v
  | .node _ cs => getCodeList cs

/-- Concatenated `get_code` of a list of sibling nodes. -/
def getCodeList : List PTree → String
  | [] => ""
  | c :: cs => getCode c ++ getCodeList cs
end

theorem getCodeList_append (l₁ l₂ : List PTree) :
    getCodeList (l₁ ++ l₂) = getCodeList l₁ ++ getCodeList l₂ := by
  induction l₁ with
  | nil => simp [getCodeList]
  | cons c cs ih => simp [getCodeList, ih, String.append_assoc]

/-- `s` occurs as a subtree of `t` (reflexively). -/
inductive IsSubtree : PTree → PTree → Prop
  | refl (t : PTree) : IsSubtree t t
  | step {s c t : PTree} : c ∈ t.childrenOf → IsSubtree s c → IsSubtree s t

/-- The source text of any subtree is a contiguous slice of the source text
of the enclosing tree. -/
theorem getCode_of_subtree {s t : PTree} (h : IsSubtree s t) :
    ∃ pre post : String, getCode t = pre ++ getCode s ++ post := by
  induction h with
  | refl => exact ⟨"", "", by simp⟩
  | @step c t hc _ ih =>
    obtain ⟨p₁, p₂, hcode⟩ := ih
    obtain ⟨l₁, l₂, hsplit⟩ := List.append_of_mem hc
    cases t with
    | leaf ty px v => simp [PTree.childrenOf] at hc
    | node ty cs =>
      refine ⟨getCodeList l₁ ++ p₁, p₂ ++ getCodeList l₂, ?_⟩
      simp only [PTree.childrenOf] at hsplit
      simp [getCode, hsplit, getCodeList_append, getCodeList, hcode,
        String.append_assoc]

/-! ## Scope scanning (`parso`'s `Scope._search_in_scope`)

`parso`'s scan yields an element if its type is among the searched names,
and descends into the element's children exactly when the element's type is
in `_FUNC_CONTAINERS`; it never descends into `funcdef`/`classdef` nodes.
-/

/-- `parso`'s `_FUNC_CONTAINERS = {'suite', 'simple_stmt', 'decorated',
'async_funcdef'} | _FLOW_CONTAINERS` with `_FLOW_CONTAINERS = {'if_stmt',
'while_stmt', 'for_stmt', 'try_stmt', 'with_stmt', 'async_stmt', 'suite'}`. -/
def FUNC_CONTAINERS : List String :=
  ["suite", "simple_stmt", "decorated", "async_funcdef",
   "if_stmt", "while_stmt", "for_stmt", "try_stmt", "with_stmt", "async_stmt"]

mutual
/-- The `scan` generator inside `_search_in_scope`: for each element, yield
it if its type matches, then recurse into container elements. -/
def scanChildren (types : List String) : List PTree → List PTree
  | [] => []
  | c :: cs =>
    (if c.typeOf ∈ types then [c] else [])
      ++ scanInto types c ++ scanChildren types cs

/-- Descend into one element when it is a container node. -/
def scanInto (types : List String) : PTree → List PTree
  | .leaf _ _ _ => []
  | .node t cs => if t ∈ FUNC_CONTAINERS then scanChildren types cs else []
end

/-- `Scope._search_in_scope(*names)`: scan the scope's children. -/
def searchInScope (types : List String) (t : PTree) : List PTree :=
  scanChildren types t.childrenOf

/-- `Scope.iter_funcdefs()` = `_search_in_scope('funcdef')`. -/
def iterFuncdefs (t : PTree) : List PTree :=
  searchInScope ["funcdef"] t

/-- `node.name.value` for a funcdef/classdef node: `name` is `children[1]`.
(`parso` raises on malformed nodes; funcdef/classdef always have the name
leaf at index 1, so the fallback is unreachable for scanned nodes.) -/
def nameLeafValue (t : PTree) : String :=
  match t.childrenOf with
  | _ :: nm :: _ => nm.valueOf
  | _ => ""

/-! ## Outcomes of Python computations

A Python call either returns a value, raises an exception, or does not
terminate.  The third alternative is reachable in this code (the suite
walk below), so computations that run the walk use `PyResult`, with the
walk itself driven by explicit fuel: `hang` means the fuel ran out, and a
state-preserving loop yields `hang` for every fuel. -/
inductive PyResult (α : Type) where
  | ok (val : α)
  | err (msg : String)
  | hang
deriving Repr

def PyResult.bind : PyResult α → (α → PyResult β) → PyResult β
  | .ok a, f => f a
  | .err m, _ => .err m
  | .hang, _ => .hang

def PyResult.ofExcept : Except String α → PyResult α
  | .ok a => .ok a
  | .error m => .err m

/-! ## `_ParsedFuncNodes.parts` : fixed-position signature decomposition -/

/-- `FuncParts` namedtuple.  The field `ann` carries the source's
return-type annotation entry (`FuncParts.annotation` in the Python code). -/
structure FuncParts where
  kw_def : PTree
  name : PTree
  parms : PTree
  arrow : Option PTree
  ann : Option PTree
  colon : Option PTree
  suite : Option PTree
deriving Repr

/-- `_ParsedFuncNodes.parts`: children 0..2 are `def`/name/parameters;
child 3 is either the `:` operator (then the next child is the suite) or
the `->` arrow (then annotation, colon, suite follow); raises
`Exception("Function children not parsed: ...")` when children remain, and
`IndexError` when a `pop(0)` or `children[3]` hits a too-short list. -/
def partsOf (func : PTree) : Except String FuncParts :=
  match func.childrenOf with
  | kw :: nm :: pa :: arrOrColon :: rest =>
    if arrOrColon.typeOf = "operator" ∧ arrOrColon.valueOf = ":" then
      match rest with
      | [] => .error "IndexError"
      | st :: extra =>
        if extra.isEmpty then
          .ok ⟨kw, nm, pa, none, none, some arrOrColon, some st⟩
        else .error "Function children not parsed"
    else
      match rest with
      | annNode :: col :: st :: extra =>
        if extra.isEmpty then
          .ok ⟨kw, nm, pa, some arrOrColon, some annNode, some col, some st⟩
        else .error "Function children not parsed"
      | _ => .error "IndexError"
  | _ => .error "IndexError"

/-! ## `_ParsedFuncNodes.suite` : the docstring / body walk -/

/-- The `while` loop of `_ParsedFuncNodes.suite`, state = (remaining
children, collected newlines).  One faithful detail matters: when the head
child is a `simple_stmt` whose first child is not a string, the Python loop
body falls through without consuming anything or breaking, so the loop
repeats with an unchanged state — the recursion below re-enters with the
same `children`, and only the fuel shrinks. -/
def suiteLoop (fuel : Nat) (children : List PTree) (newlines : List PTree) :
    PyResult (List PTree × Option PTree × List PTree) :=
  match fuel with
  | 0 => .hang
  | fuel + 1 =>
    match children with
    | [] => .ok (newlines, none, [])
    | child :: rest =>
      if child.typeOf = "newline" then
        suiteLoop fuel rest (newlines ++ [child])
      else if child.typeOf = "simple_stmt" then
        match child.childrenOf with
        | [] => .err "IndexError"
        | first :: _ =>
          if first.typeOf = "string" then .ok (newlines, some child, rest)
          else suiteLoop fuel children newlines
      else
        .ok (newlines, none, children)

/-- `FuncSuiteParts` namedtuple: empty newline/body lists are stored as
`None` (the code only sets the entries when the lists are non-empty). -/
structure FuncSuiteParts where
  newlines : Option (List PTree)
  doc : Option PTree
  body : Option (List PTree)
deriving Repr

/-- `_ParsedFuncNodes.suite`: run the walk on the suite node's children
(all fields `None` when there is no suite node). -/
def suiteOf (fuel : Nat) (suiteNode : Option PTree) : PyResult FuncSuiteParts :=
  match suiteNode with
  | none => .ok ⟨none, none, none⟩
  | some s =>
    (suiteLoop fuel s.childrenOf []).bind fun (nls, doc, rest) =>
      .ok ⟨if nls.isEmpty then none else some nls, doc,
           if rest.isEmpty then none else some rest⟩

/-! ## Signature-node selection and rendered code strings -/

/-- `FUNC_SIG_ATTRS` (module constant): the fixed field order used when no
explicit attribute list is supplied. -/
def FUNC_SIG_ATTRS : List String :=
  ["kw_def", "name", "parms", "arrow", "annotation", "colon"]

/-- `getattr(self.parts, attr)` for the namedtuple fields; unknown
attribute names raise `AttributeError`.  The always-present fields come
back as `some`, the optional ones as stored. -/
def getSigAttr (p : FuncParts) : String → Except String (Option PTree)
  | "kw_def" => .ok (some p.kw_def)
  | "name" => .ok (some p.name)
  | "parms" => .ok (some p.parms)
  | "arrow" => .ok p.arrow
  | "annotation" => .ok p.ann
  | "colon" => .ok p.colon
  | "suite" => .ok p.suite
  | _ => .error "AttributeError"

/-- The comprehension `[getattr(self.parts, attr) for attr in attrs]`:
attribute lookups in the caller-supplied order, left to right, with the
first `AttributeError` propagating. -/
def attrLookupList (p : FuncParts) : List String → Except String (List (Option PTree))
  | [] => .ok []
  | a :: rest =>
    match getSigAttr p a, attrLookupList p rest with
    | .ok x, .ok xs => .ok (x :: xs)
    | .error m, _ => .error m
    | .ok _, .error m => .error m

/-- `_ParsedFuncNodes.mk_sig_nodes(attrs)`: look each requested attribute
up **in the order in which the caller listed it** and keep the truthy
(non-`None`) ones — nodes are always truthy in Python, so the final
comprehension `[x for x in parts if x]` drops exactly the `None`s. -/
def mk_sig_nodes (p : FuncParts) (attrs : Option (List String)) :
    Except String (List PTree) :=
  match attrLookupList p (attrs.getD FUNC_SIG_ATTRS) with
  | .ok sel => .ok (sel.filterMap id)
  | .error m => .error m

/-- `ParsedFuncCode.mk_sig(attrs)`: `''.join(n.get_code() for n in
self.nodes.mk_sig_nodes(attrs))`. -/
def mk_sig (p : FuncParts) (attrs : List String) : Except String String :=
  match mk_sig_nodes p (some attrs) with
  | .ok nodes => .ok (getCodeList nodes)
  | .error m => .error m

/-- `Function.get_decorators()` of `parso`, with the node's ancestor chain
(nearest first) made explicit: hop over an `async_funcdef` wrapper, then if
the (grand)parent is a `decorated` node return its decorator nodes
(`children[0].children` when child 0 is a `decorators` node, else
`children[:1]`).  `children[0]` of an empty `decorated` node would raise in
Python but such nodes cannot be produced by the parser. -/
def get_decorators (ancestors : List PTree) : List PTree :=
  let dec :=
    match ancestors with
    | [] => none
    | p :: rest => if p.typeOf = "async_funcdef" then rest.head? else some p
  match dec with
  | none => []
  | some d =>
    if d.typeOf = "decorated" then
      match d.childrenOf with
      | [] => []
      | c :: _ => if c.typeOf = "decorators" then c.childrenOf else [c]
    else []

/-- The four rendered components produced by `_ParsedFuncCodes`. -/
structure CodesView where
  decor : String
  sig : String
  doc : String
  body : String
deriving Repr

/-- `_ParsedFuncNodes.sig` followed by `_ParsedFuncCodes`: signature nodes
in fixed order plus the suite's leading newline nodes, rendered; the doc
node rendered (or `''`); the body nodes rendered (or `''`).
`_ParsedFuncNodes.decor` stores `None` instead of an empty list, and
`_ParsedFuncCodes.decor` renders that as `''`. -/
def codesOf (fuel : Nat) (ancestors : List PTree) (func : PTree) :
    PyResult CodesView :=
  (PyResult.ofExcept (partsOf func)).bind fun parts =>
  (suiteOf fuel parts.suite).bind fun sps =>
  (PyResult.ofExcept (mk_sig_nodes parts none)).bind fun sigSel =>
    let decNodes := get_decorators ancestors
    let decorStr := if decNodes.isEmpty then "" else getCodeList decNodes
    let sigNodes := sigSel ++ (sps.newlines.getD [])
    let docStr := match sps.doc with
      | some n => getCode n
      | none => ""
    let bodyStr := match sps.body with
      | some ns => getCodeList ns
      | none => ""
    .ok ⟨decorStr, getCodeList sigNodes, docStr, bodyStr⟩

/-! ## Locating the target function (`ParsedFuncCode.func`) -/

/-- `ParsedFuncCode.func`: `next(node for node in tree.iter_funcdefs() if
node.name.value == self.name)` — the first scope-level `funcdef` whose
name matches; an exhausted `next` raises `StopIteration`, and a matched
node that is not a `Function` raises `TypeError` (unreachable, since
`iter_funcdefs` only yields `funcdef` nodes). -/
def funcOf (tree : PTree) (name : String) : Except String PTree :=
  match (iterFuncdefs tree).filter (fun f => nameLeafValue f = name) with
  | [] => .error "StopIteration"
  | f :: _ =>
    if f.typeOf = "funcdef" then .ok f
    else .error "Could not extract Function node from tree"

/-! ## Line-level string helpers

Python string methods used by the slicer (`splitlines`, `strip`,
`lstrip`, `startswith`) modelled on `List Char`. -/

/-- Split a character list at every `'\n'`; the result is non-empty and a
trailing newline yields a trailing empty line (like `str.split`). -/
def splitLinesC : List Char → List (List Char)
  | [] => [[]]
  | c :: cs =>
    if c = '\n' then [] :: splitLinesC cs
    else
      match splitLinesC cs with
      | [] => [[c]]
      | l :: ls => (c :: l) :: ls

/-- Re-join lines with `'\n'`. -/
def joinLinesC : List (List Char) → List Char
  | [] => []
  | [l] => l
  | l :: ls => l ++ '\n' :: joinLinesC ls

/-- `str.splitlines()` for `'\n'`-terminated text: like `splitLinesC` but
without the trailing empty line a final newline would produce. -/
def pySplitlines (s : String) : List (List Char) :=
  let ls := splitLinesC s.data
  match ls.getLast? with
  | some [] => ls.dropLast
  | _ => ls

/-- `str.lstrip()`: drop leading whitespace. -/
def lstripC (l : List Char) : List Char := l.dropWhile (·.isWhitespace)

/-- `str.strip()`: drop leading and trailing whitespace. -/
def stripC (l : List Char) : List Char :=
  ((lstripC l).reverse.dropWhile (·.isWhitespace)).reverse

/-- `ParsedFuncCode.indent_size`: the first signature line whose stripped
text starts with `def` contributes `len(line) - len(line.lstrip())`;
defensive fallback 0 when no line matches. -/
def indent_size (sig : String) : Nat :=
  match (pySplitlines sig).find? (fun l => "def".data.isPrefixOf (stripC l)) with
  | some l => l.length - (lstripC l).length
  | none => 0

/-- Modelled from the spec: `dedent_by` is imported from
`tk_utils_core.core.messages.formatters`, whose copy here does not contain
its definition.  The spec describes it as a fixed-width dedent — "removal
of a fixed number of leading whitespace characters from every line", with
"exactly `indent_size` leading spaces stripped from each line (not more,
not less — a fixed-width dedent, not a common-whitespace computation)".
A line that does not start with `n` spaces has nothing specified to strip
and is kept unchanged. -/
def dedent_by (text : String) (n : Nat) : String :=
  ⟨joinLinesC ((splitLinesC text.data).map
      (fun l => if (List.replicate n ' ').isPrefixOf l then l.drop n else l))⟩

/-- Prepend `n` spaces to every line (the "re-indent" of the dedent
round-trip property). -/
def reindentBy (n : Nat) (text : String) : String :=
  ⟨joinLinesC ((splitLinesC text.data).map (List.replicate n ' ' ++ ·))⟩

/-! ## `ParsedFunc` -/

/-- The reflection data the runtime exposes about a callable: its
`__name__`, the text `inspect.getsource` recovers, and its `__doc__`
(which is `None` exactly when the function declares no docstring). -/
structure PyFunc where
  name : String
  src : String
  doc : Option String
deriving Repr

/-- Outcome of `ParsedFunc.__init__`: either the constructed state (the
stored `self.obj`, `self.name`, `self.src`) or a raised `ValueError`. -/
inductive InitOutcome where
  | ok (obj : Option PyFunc) (name : String) (src : Option String)
  | err (msg : String)
deriving Repr

/-- `ParsedFunc.__init__(obj, name, src)`.  The source's first two guards
test the **same** condition (`obj is not None and src is not None`), so the
second branch is dead code; when `obj` is `None` the only remaining check
is `name is None`, and `src` is stored as given (possibly `None`). -/
def ParsedFunc_init (obj : Option PyFunc) (name : Option String)
    (src : Option String) : InitOutcome :=
  if obj.isSome ∧ src.isSome then
    .err "Parms `src` and `obj` cannot be both None"
  else if obj.isSome ∧ src.isSome then
    .err "One of `obj` and `src` must not be None"
  else
    match obj with
    | some o => .ok (some o) o.name (some o.src)
    | none =>
      match name with
      | none => .err "Parm `name` must not be None if `src` is not None"
      | some nm => .ok none nm src

/-- `ParsedFuncNtup` namedtuple.  `doc` can be the `None` stored in a
callable's `__doc__`, hence `Option`; the other fields are always
strings. -/
structure ParsedFuncNtup where
  decor : String
  sig : String
  doc : Option String
  body : String
deriving Repr

/-- `ParsedFunc.as_ntup(dedent, use_doc_attr)` given the rendered codes,
the computed indentation and the stored `self.obj`: optionally dedent every
field, then — when `use_doc_attr` is true and an object is stored —
replace `doc` by the object's `__doc__` verbatim (this assignment happens
after the dedent loop, so it bypasses dedenting entirely). -/
def as_ntup (codes : CodesView) (indentSize : Nat) (obj : Option PyFunc)
    (dedent : Bool) (use_doc_attr : Bool) : ParsedFuncNtup :=
  let dd := fun (s : String) => if dedent then dedent_by s indentSize else s
  let doc0 : Option String :=
    match use_doc_attr, obj with
    | true, some o => o.doc
    | _, _ => some (dd codes.doc)
  ⟨dd codes.decor, dd codes.sig, doc0, dd codes.body⟩

/-- The whole `ParsedFunc` read path for a source snippet: locate the
function in the parsed tree, render its codes, compute the indentation and
build the namedtuple view.  `ancestors` is the located node's ancestor
chain inside the tree (nearest first), which `parso` stores as parent
pointers. -/
def parsedFuncNtup (fuel : Nat) (tree : PTree) (ancestors : List PTree)
    (name : String) (obj : Option PyFunc) (dedent use_doc_attr : Bool) :
    PyResult ParsedFuncNtup :=
  (PyResult.ofExcept (funcOf tree name)).bind fun f =>
  (codesOf fuel ancestors f).bind fun codes =>
    .ok (as_ntup codes (indent_size codes.sig) obj dedent use_doc_attr)

/-! ## `ModuleDefs` : the definition indexer -/

/-- Python `dict` assignment `base[key] = v` on an insertion-ordered
association list: replace in place when the key exists, else append. -/
def dinsert (k : String) (v : PTree) : List (String × PTree) → List (String × PTree)
  | [] => [(k, v)]
  | (k', v') :: rest =>
    if k' = k then (k, v) :: rest else (k', v') :: dinsert k v rest

/-- `ModuleDefs.get_cls_or_func(node, base, prefix)`: for each direct
scope-level `funcdef`/`classdef` of `node`, record it under
`f"{prefix}.{name}"` when the prefix string is non-empty (truthy) else
under `name`, then recurse into the definition **with the definition's own
bare name as the new prefix**.  The Python recursion is bounded by the
nesting depth; the fuel only caps that depth, and any fuel at least the
depth plus one yields the Python result. -/
def get_cls_or_func (fuel : Nat) (node : PTree) (base : List (String × PTree))
    (pfx : String) : Option (List (String × PTree)) :=
  match fuel with
  | 0 => none
  | fuel + 1 =>
    (searchInScope ["funcdef", "classdef"] node).foldl
      (fun acc child =>
        acc.bind fun b =>
          let nm := nameLeafValue child
          let key := if pfx = "" then nm else pfx ++ "." ++ nm
          get_cls_or_func fuel child (dinsert key child b) nm)
      (some base)

/-- Lexicographic code-point comparison of character lists (Python's
string ordering). -/
def charListLeB : List Char → List Char → Bool
  | [], _ => true
  | _ :: _, [] => false
  | c :: cs, d :: ds =>
    if c.toNat < d.toNat then true
    else if d.toNat < c.toNat then false
    else charListLeB cs ds

/-- `a <= b` for Python strings (code-point lexicographic). -/
def strLeB (a b : String) : Bool := charListLeB a.data b.data

/-- Insert into a key-sorted association list (ascending, as Python's
`sorted` orders distinct dict keys). -/
def sortInsertByKey (x : String × PTree) : List (String × PTree) → List (String × PTree)
  | [] => [x]
  | y :: ys => if strLeB x.1 y.1 then x :: y :: ys else y :: sortInsertByKey x ys

/-- Sort an association list by key, ascending. -/
def pySortedByKey (l : List (String × PTree)) : List (String × PTree) :=
  l.foldr sortInsertByKey []

/-- `ModuleDefs.cls_or_func_defs`: run the recursion from the module tree
with the module prefix (`''` unless `add_mod_prefix`), then return the
mapping with its keys sorted (`{x: out[x] for x in sorted(out)}`). -/
def cls_or_func_defs (fuel : Nat) (tree : PTree) (modPfx : String) :
    Option (List (String × PTree)) :=
  (get_cls_or_func fuel tree [] modPfx).map pySortedByKey

/-! ## Concrete example trees

Each tree below is the exact `parso.parse` output (types, prefixes, token
values) for the quoted snippet, transcribed node by node. -/

/-- Shorthand for a leaf. -/
def lf (t p v : String) : PTree := .leaf t p v

/-- Shorthand for an inner node. -/
def nd (t : String) (cs : List PTree) : PTree := .node t cs

/-- `parso.parse("def f():\n    x = 1\n")`: a function whose first (and
only) statement is a non-string `simple_stmt`. -/
def egSimpleStmt : PTree :=
  nd "simple_stmt"
    [nd "expr_stmt" [lf "name" "    " "x", lf "operator" " " "=",
                     lf "number" " " "1"],
     lf "newline" "" "\n"]

def egSimpleFunc : PTree :=
  nd "funcdef"
    [lf "keyword" "" "def", lf "name" " " "f",
     nd "parameters" [lf "operator" "" "(", lf "operator" "" ")"],
     lf "operator" "" ":",
     nd "suite" [lf "newline" "" "\n", egSimpleStmt]]

def egSimpleTree : PTree :=
  nd "file_input" [egSimpleFunc, lf "endmarker" "" ""]

/-- `parso.parse("@deco\ndef square(x) -> int:\n    \"\"\"Sq.\"\"\"\n    return x*x\n")`:
a decorated, annotated function with a docstring. -/
def egSquareDoc : PTree :=
  nd "simple_stmt" [lf "string" "    " "\"\"\"Sq.\"\"\"", lf "newline" "" "\n"]

def egSquareRet : PTree :=
  nd "simple_stmt"
    [nd "return_stmt"
       [lf "keyword" "    " "return",
        nd "term" [lf "name" " " "x", lf "operator" "" "*", lf "name" "" "x"]],
     lf "newline" "" "\n"]

def egSquareFunc : PTree :=
  nd "funcdef"
    [lf "keyword" "" "def", lf "name" " " "square",
     nd "parameters" [lf "operator" "" "(", nd "param" [lf "name" "" "x"],
                      lf "operator" "" ")"],
     lf "operator" " " "->", lf "name" " " "int", lf "operator" "" ":",
     nd "suite" [lf "newline" "" "\n", egSquareDoc, egSquareRet]]

def egSquareDecorated : PTree :=
  nd "decorated"
    [nd "decorator" [lf "operator" "" "@", lf "name" "" "deco",
                     lf "newline" "" "\n"],
     egSquareFunc]

def egSquareTree : PTree :=
  nd "file_input" [egSquareDecorated, lf "endmarker" "" ""]

/-- `parso.parse("  def m(self):\n    \"\"\"D\"\"\"\n\n    return 1\n")`:
a method source as recovered by `inspect.getsource` (indented by 2 here),
with a blank line inside the body.  `parso`'s error recovery emits a
leading `error_leaf` for the stray indent. -/
def egMethodFunc : PTree :=
  nd "funcdef"
    [lf "keyword" "  " "def", lf "name" " " "m",
     nd "parameters" [lf "operator" "" "(", nd "param" [lf "name" "" "self"],
                      lf "operator" "" ")"],
     lf "operator" "" ":",
     nd "suite"
       [lf "newline" "" "\n",
        nd "simple_stmt" [lf "string" "    " "\"\"\"D\"\"\"",
                          lf "newline" "" "\n"],
        nd "simple_stmt"
          [nd "return_stmt" [lf "keyword" "\n    " "return",
                             lf "number" " " "1"],
           lf "newline" "" "\n"]]]

def egMethodTree : PTree :=
  nd "file_input" [lf "error_leaf" "" "", egMethodFunc, lf "endmarker" "" ""]

/-- `parso.parse("def f():\n    def g():\n        pass\n")`: a top-level
function `f` with a nested function `g`. -/
def egInnerG : PTree :=
  nd "funcdef"
    [lf "keyword" "    " "def", lf "name" " " "g",
     nd "parameters" [lf "operator" "" "(", lf "operator" "" ")"],
     lf "operator" "" ":",
     nd "suite" [lf "newline" "" "\n",
                 nd "simple_stmt" [lf "keyword" "        " "pass",
                                   lf "newline" "" "\n"]]]

def egOuterF : PTree :=
  nd "funcdef"
    [lf "keyword" "" "def", lf "name" " " "f",
     nd "parameters" [lf "operator" "" "(", lf "operator" "" ")"],
     lf "operator" "" ":",
     nd "suite" [lf "newline" "" "\n", egInnerG]]

def egFGTree : PTree :=
  nd "file_input" [egOuterF, lf "endmarker" "" ""]

/-! ## Claim C1 — construction error cases -/

/-- C1: the claim says `ParsedFunc` construction fails in exactly three
cases — both inputs, neither input, or source without a name — and
succeeds otherwise.  The code does raise for "both" and for "source
without name", but constructing with **neither** a callable nor source
text succeeds whenever a name is passed, because the second guard repeats
the first guard's condition (`obj is not None and src is not None`) and is
dead code: with `obj=None, src=None, name='f'` the constructor returns
normally, storing `src=None`.  This contradicts the claim and the
method's own docstring ("Raises ValueError if both `obj` and `src` are
provided or both are None"). -/
theorem C1_neither_given_constructs :
    ParsedFunc_init (some ⟨"f", "def f(): pass\n", none⟩) none
        (some "def f(): pass\n")
      = .err "Parms `src` and `obj` cannot be both None" ∧
    ParsedFunc_init none none (some "def f(): pass\n")
      = .err "Parm `name` must not be None if `src` is not None" ∧
    ParsedFunc_init none (some "f") none = .ok none "f" none :=
  ⟨rfl, rfl, rfl⟩

/-! ## Claim C2 — the docstring walk on functions without a docstring -/

/-- The loop state repeats itself when the head child is `egSimpleStmt` (a
`simple_stmt` whose first child is an `expr_stmt`, not a string): no fuel
suffices, i.e. the Python `while` loop never terminates. -/
theorem suiteLoop_stuck_on_simple_stmt (fuel : Nat) (nls : List PTree) :
    suiteLoop fuel [egSimpleStmt] nls = .hang := by
  induction fuel with
  | zero => rfl
  | succ n ih =>
    simpa [suiteLoop, egSimpleStmt, nd, lf, PTree.typeOf, PTree.childrenOf]
      using ih

/-- C2: the claim says the suite decomposition terminates (without a
docstring) for every valid function whose first real statement is not a
string literal.  It does not: for `def f():\n    x = 1\n` the first
statement is a `simple_stmt` whose first child is not a string, the loop
body neither consumes it nor breaks, and the walk diverges — the whole
`as_ntup` pipeline yields no result for any amount of fuel.  (Only
compound first statements such as `if`/`for`, whose type is not
`simple_stmt`, reach the terminating `else: break`.) -/
theorem C2_suite_walk_diverges (fuel : Nat) :
    parsedFuncNtup fuel egSimpleTree [egSimpleTree] "f" none true false
      = .hang := by
  have hf : funcOf egSimpleTree "f" = .ok egSimpleFunc := rfl
  have hp : partsOf egSimpleFunc = .ok
      ⟨lf "keyword" "" "def", lf "name" " " "f",
       nd "parameters" [lf "operator" "" "(", lf "operator" "" ")"],
       none, none, some (lf "operator" "" ":"),
       some (nd "suite" [lf "newline" "" "\n", egSimpleStmt])⟩ := rfl
  have hloop : suiteLoop fuel [lf "newline" "" "\n", egSimpleStmt] [] = .hang := by
    cases fuel with
    | zero => rfl
    | succ n =>
      simpa [suiteLoop, lf, PTree.typeOf]
        using suiteLoop_stuck_on_simple_stmt n [lf "newline" "" "\n"]
  simp [parsedFuncNtup, hf, PyResult.ofExcept, PyResult.bind, codesOf, hp,
    suiteOf, nd, PTree.childrenOf, hloop]

/-! ## Claim C7 — fixed-position signature decomposition -/

/-- C7: with the function node's children being `kw :: nm :: pa :: x ::
rest`, the decomposition is positional: when `x` is the literal `:`
operator the single remaining child is the suite and arrow/annotation stay
unset, and any further children raise the structural error; otherwise `x`
is the arrow, then annotation, colon, suite follow, and again any leftover
children raise; an error outcome never carries a `FuncParts` value. -/
theorem C7_parts_fixed_position (func kw nm pa x : PTree) (rest : List PTree)
    (hch : func.childrenOf = kw :: nm :: pa :: x :: rest) :
    ((x.typeOf = "operator" ∧ x.valueOf = ":") →
      (∀ st, rest = [st] →
          partsOf func = .ok ⟨kw, nm, pa, none, none, some x, some st⟩) ∧
      (∀ st e es, rest = st :: e :: es →
          partsOf func = .error "Function children not parsed")) ∧
    (¬(x.typeOf = "operator" ∧ x.valueOf = ":") →
      (∀ an co st, rest = [an, co, st] →
          partsOf func = .ok ⟨kw, nm, pa, some x, some an, some co, some st⟩) ∧
      (∀ an co st e es, rest = an :: co :: st :: e :: es →
          partsOf func = .error "Function children not parsed")) ∧
    (∀ m p, partsOf func = .error m → partsOf func ≠ .ok p) := by
  refine ⟨fun hx => ⟨?_, ?_⟩, fun hx => ⟨?_, ?_⟩, fun m p hm hp => ?_⟩
  · intro st hrest
    subst hrest
    simp [partsOf, hch, hx]
  · intro st e es hrest
    subst hrest
    simp [partsOf, hch, hx]
  · intro an co st hrest
    subst hrest
    simp [partsOf, hch, hx]
  · intro an co st e es hrest
    subst hrest
    simp [partsOf, hch, hx]
  · rw [hm] at hp
    exact Except.noConfusion hp

/-- Closed instance of the C7 characterization at the concrete annotated
function `square` (and at a variant with a stray trailing child): the
decomposition and the leftover-children error, evaluated. -/
theorem C7_parts_fixed_position_witness :
    partsOf egSquareFunc = .ok
      ⟨lf "keyword" "" "def", lf "name" " " "square",
       nd "parameters" [lf "operator" "" "(", nd "param" [lf "name" "" "x"],
                        lf "operator" "" ")"],
       some (lf "operator" " " "->"), some (lf "name" " " "int"),
       some (lf "operator" "" ":"),
       some (nd "suite" [lf "newline" "" "\n", egSquareDoc, egSquareRet])⟩ ∧
    partsOf (nd "funcdef" (egSquareFunc.childrenOf ++ [lf "operator" "" ","]))
      = .error "Function children not parsed" := by
  constructor
  · exact ((C7_parts_fixed_position egSquareFunc _ _ _ _ _ rfl).2.1
      (by decide)).1 _ _ _ rfl
  · exact ((C7_parts_fixed_position
      (nd "funcdef" (egSquareFunc.childrenOf ++ [lf "operator" "" ","]))
      _ _ _ _ _ rfl).2.1 (by decide)).2 _ _ _ _ _ rfl

/-! ## Claim C8 — locating the target function -/

mutual
/-- Every node yielded by the scope scan has one of the searched types. -/
theorem scanChildren_typeOf_mem (types : List String) :
    ∀ cs, ∀ x ∈ scanChildren types cs, x.typeOf ∈ types
  | c :: cs, x, hx => by
    simp only [scanChildren, List.append_assoc, List.mem_append] at hx
    rcases hx with hx | hx | hx
    · split at hx
      · next h => rcases List.mem_singleton.mp hx with rfl; exact h
      · simp at hx
    · exact scanInto_typeOf_mem types c x hx
    · exact scanChildren_typeOf_mem types cs x hx

theorem scanInto_typeOf_mem (types : List String) :
    ∀ t, ∀ x ∈ scanInto types t, x.typeOf ∈ types
  | .node t cs, x, hx => by
    simp only [scanInto] at hx
    split at hx
    · exact scanChildren_typeOf_mem types cs x hx
    · simp at hx
end

/-- `iter_funcdefs` only yields `funcdef` nodes. -/
theorem iterFuncdefs_typeOf {tree x : PTree} (hx : x ∈ iterFuncdefs tree) :
    x.typeOf = "funcdef" := by
  simpa using scanChildren_typeOf_mem ["funcdef"] tree.childrenOf x hx

/-- C8: resolving the target scans only the scope-level `funcdef`s of the
parsed tree (the scan never descends into `funcdef`/`classdef` nodes, so
nested functions are invisible), returns the first scope-level `funcdef`
with the requested name, and raises when there is none; concretely, on
`def f():\n    def g():\n        pass\n` the nested `g` is never selected
and resolution of `"g"` fails. -/
theorem C8_func_resolution (tree : PTree) (name : String) :
    ((iterFuncdefs tree).filter (fun f => nameLeafValue f = name) = [] →
        funcOf tree name = .error "StopIteration") ∧
    (∀ f fs,
        (iterFuncdefs tree).filter (fun f => nameLeafValue f = name) = f :: fs →
        funcOf tree name = .ok f) ∧
    funcOf egFGTree "g" = .error "StopIteration" := by
  refine ⟨fun h => ?_, fun f fs h => ?_, rfl⟩
  · unfold funcOf
    rw [h]
  · have hf : f ∈ iterFuncdefs tree :=
      List.mem_of_mem_filter (h ▸ List.mem_cons_self f fs)
    have ht : f.typeOf = "funcdef" := iterFuncdefs_typeOf hf
    unfold funcOf
    rw [h]
    simp [ht]

/-- Closed instance of C8: the decorated top-level `square` resolves to
its `funcdef` node (first match of the scope scan). -/
theorem C8_func_resolution_witness :
    funcOf egSquareTree "square" = .ok egSquareFunc :=
  (C8_func_resolution egSquareTree "square").2.1 egSquareFunc [] rfl

/-! ## Claim C9 — `mk_sig` field selection and order -/

/-- The value `getattr(parts, a)` yields for a valid signature attribute
(`None` for an absent optional field). -/
def sigAttrOpt (p : FuncParts) (a : String) : Option PTree :=
  match getSigAttr p a with
  | .ok o => o
  | .error _ => none

/-- The `FuncParts` of `egSquareFunc`, as computed by `partsOf`. -/
def egSquareParts : FuncParts :=
  ⟨lf "keyword" "" "def", lf "name" " " "square",
   nd "parameters" [lf "operator" "" "(", nd "param" [lf "name" "" "x"],
                    lf "operator" "" ")"],
   some (lf "operator" " " "->"), some (lf "name" " " "int"),
   some (lf "operator" "" ":"),
   some (nd "suite" [lf "newline" "" "\n", egSquareDoc, egSquareRet])⟩

/-- C9 counterexample: the claim says `mk_sig` concatenates the selected
sub-nodes **in the fixed field order, not the caller-supplied order**, so
`["name", "kw_def"]` and `["kw_def", "name"]` would render identically.
They do not: the comprehension iterates over the caller's list, so
`["name", "kw_def"]` renders `" squaredef"` while `["kw_def", "name"]`
renders `"def square"`. -/
theorem C9_fixed_order_cex :
    partsOf egSquareFunc = .ok egSquareParts ∧
    mk_sig egSquareParts ["name", "kw_def"] = .ok " squaredef" ∧
    mk_sig egSquareParts ["kw_def", "name"] = .ok "def square" ∧
    (" squaredef" : String) ≠ "def square" :=
  ⟨rfl, rfl, rfl, by decide⟩

/-- Attribute lookups on a valid attribute list never raise and produce
the per-attribute values in caller order. -/
theorem attrLookupList_valid (p : FuncParts) (attrs : List String)
    (hv : ∀ a ∈ attrs, a ∈ FUNC_SIG_ATTRS) :
    attrLookupList p attrs = .ok (attrs.map (sigAttrOpt p)) := by
  induction attrs with
  | nil => rfl
  | cons a rest ih =>
    have ha : a ∈ FUNC_SIG_ATTRS := hv a (List.mem_cons_self a rest)
    have hrest := ih (fun b hb => hv b (List.mem_cons_of_mem a hb))
    have hga : getSigAttr p a = .ok (sigAttrOpt p a) := by
      simp only [FUNC_SIG_ATTRS, List.mem_cons, List.mem_singleton,
        List.not_mem_nil, or_false] at ha
      rcases ha with rfl | rfl | rfl | rfl | rfl | rfl <;> rfl
    simp [attrLookupList, hga, hrest]

/-- C9, amended: given any list of valid signature field names, `mk_sig`
concatenates the source text of exactly the selected present sub-nodes,
in the **caller-supplied** order, silently skipping fields that are absent
(`None`) on the parsed function. -/
theorem C9_mk_sig_caller_order (p : FuncParts) (attrs : List String)
    (hv : ∀ a ∈ attrs, a ∈ FUNC_SIG_ATTRS) :
    mk_sig p attrs = .ok (getCodeList (attrs.filterMap (sigAttrOpt p))) := by
  simp [mk_sig, mk_sig_nodes, attrLookupList_valid p attrs hv,
    List.filterMap_map, Function.comp]

/-- Closed instance of the amended C9 at `square` with caller order
`["colon", "name"]`: the colon then the name, skipping nothing. -/
theorem C9_mk_sig_caller_order_witness :
    mk_sig egSquareParts ["colon", "name"] = .ok ": square" :=
  (C9_mk_sig_caller_order egSquareParts ["colon", "name"]
    (by decide)).trans (by rfl)

/-! ## Claim C6 — docstring capture and exclusion from the body -/

/-- Running the walk over leading newline children followed by a
string-headed `simple_stmt`: the newlines are collected, the statement is
captured as the docstring, and the walk stops with exactly the following
statements left over. -/
theorem suiteLoop_doc (nls : List PTree) :
    ∀ (fuel : Nat) (acc rest : List PTree) (docStmt firstLeaf : PTree)
      (others : List PTree),
    (∀ x ∈ nls, x.typeOf = "newline") →
    nls.length < fuel →
    docStmt.typeOf = "simple_stmt" →
    docStmt.childrenOf = firstLeaf :: others →
    firstLeaf.typeOf = "string" →
    suiteLoop fuel (nls ++ docStmt :: rest) acc = .ok (acc ++ nls, some docStmt, rest) := by
  induction nls with
  | nil =>
    intro fuel acc rest docStmt firstLeaf others _ hfuel hdoc hfc hstr
    match fuel, hfuel with
    | fuel + 1, _ =>
      have hne : docStmt.typeOf ≠ "newline" := by rw [hdoc]; decide
      simp [suiteLoop, hne, hdoc, hfc, hstr]
  | cons x xs ih =>
    intro fuel acc rest docStmt firstLeaf others hnl hfuel hdoc hfc hstr
    match fuel, hfuel with
    | fuel + 1, hfuel =>
      have hx : x.typeOf = "newline" := hnl x (List.mem_cons_self x xs)
      have := ih fuel (acc ++ [x]) rest docStmt firstLeaf others
        (fun y hy => hnl y (List.mem_cons_of_mem x hy))
        (Nat.lt_of_succ_lt_succ hfuel) hdoc hfc hstr
      simpa [suiteLoop, hx, List.append_assoc] using this

/-- C6: for a suite whose children are leading newline nodes followed by a
`simple_stmt` whose first child is a string leaf, the decomposition stores
exactly that statement as `doc` and exactly the statements after it as
`body` (the docstring statement is consumed and excluded from the body),
and the rendered `doc` contains the docstring literal verbatim. -/
theorem C6_docstring_captured (s docStmt firstLeaf : PTree)
    (nls rest others : List PTree) (px v : String) (fuel : Nat)
    (hch : s.childrenOf = nls ++ docStmt :: rest)
    (hnls : ∀ x ∈ nls, x.typeOf = "newline")
    (hfuel : nls.length < fuel)
    (hdoc : docStmt.typeOf = "simple_stmt")
    (hfc : docStmt.childrenOf = firstLeaf :: others)
    (hstr : firstLeaf = PTree.leaf "string" px v) :
    suiteOf fuel (some s) = .ok
      ⟨if nls.isEmpty then none else some nls, some docStmt,
       if rest.isEmpty then none else some rest⟩ ∧
    ∃ post, getCode docStmt = px ++ (v ++ post) := by
  constructor
  · have hloop := suiteLoop_doc nls fuel [] rest docStmt firstLeaf others
      hnls hfuel hdoc hfc (by rw [hstr]; rfl)
    simp [suiteOf, hch, hloop, PyResult.bind]
  · cases docStmt with
    | leaf t p w => simp [PTree.childrenOf] at hfc
    | node t cs =>
      simp only [PTree.childrenOf] at hfc
      refine ⟨getCodeList others, ?_⟩
      simp [getCode, hfc, getCodeList, hstr, String.append_assoc]

/-- Closed instance of C6 at the concrete `square` function: the walk
captures `"""Sq."""` as the docstring and leaves only the `return`
statement in the body. -/
theorem C6_docstring_captured_witness :
    suiteOf 2 (some (nd "suite" [lf "newline" "" "\n", egSquareDoc, egSquareRet]))
      = .ok ⟨some [lf "newline" "" "\n"], some egSquareDoc, some [egSquareRet]⟩ ∧
    ∃ post, getCode egSquareDoc = "    " ++ ("\"\"\"Sq.\"\"\"" ++ post) := by
  have h := C6_docstring_captured
    (nd "suite" [lf "newline" "" "\n", egSquareDoc, egSquareRet])
    egSquareDoc (lf "string" "    " "\"\"\"Sq.\"\"\"")
    [lf "newline" "" "\n"] [egSquareRet] [lf "newline" "" "\n"]
    "    " "\"\"\"Sq.\"\"\"" 2 rfl (by decide) (by decide) rfl rfl rfl
  simpa using h

/-! ## Claim C5 — concatenation round-trip -/

/-- When the suite walk terminates normally, the suite's children are
exactly the collected newlines, then the captured docstring (if any), then
the leftover body statements, in order. -/
theorem suiteLoop_ok_decomp (fuel : Nat) :
    ∀ (cs acc nls rest : List PTree) (doc : Option PTree),
    suiteLoop fuel cs acc = .ok (nls, doc, rest) →
    acc ++ cs = nls ++ (doc.toList ++ rest) := by
  induction fuel with
  | zero => intro cs acc nls rest doc h; exact absurd h (by simp [suiteLoop])
  | succ fuel ih =>
    intro cs acc nls rest doc h
    match cs with
    | [] =>
      simp only [suiteLoop, PyResult.ok.injEq, Prod.mk.injEq] at h
      obtain ⟨rfl, rfl, rfl⟩ := h
      simp
    | child :: cs' =>
      simp only [suiteLoop] at h
      split at h
      · have := ih cs' (acc ++ [child]) nls rest doc h
        simpa [List.append_assoc] using this
      · split at h
        · split at h
          · exact absurd h (by simp)
          · split at h
            · simp only [PyResult.ok.injEq, Prod.mk.injEq] at h
              obtain ⟨rfl, rfl, rfl⟩ := h
              simp
            · exact ih _ _ _ _ _ h
        · simp only [PyResult.ok.injEq, Prod.mk.injEq] at h
          obtain ⟨rfl, rfl, rfl⟩ := h
          simp

/-- Inversion of a successful `partsOf`: the function node's children have
one of the two supported shapes, and the fields are positional. -/
theorem partsOf_ok_shape {func : PTree} {p : FuncParts}
    (h : partsOf func = .ok p) :
    (p.arrow = none ∧ p.ann = none ∧ ∃ col st, p.colon = some col ∧
        p.suite = some st ∧
        func.childrenOf = [p.kw_def, p.name, p.parms, col, st]) ∨
    (∃ arr an col st, p.arrow = some arr ∧ p.ann = some an ∧
        p.colon = some col ∧ p.suite = some st ∧
        func.childrenOf = [p.kw_def, p.name, p.parms, arr, an, col, st]) := by
  unfold partsOf at h
  split at h
  · next kw nm pa x rest hch =>
    split at h
    · cases rest with
      | nil => exact absurd h (by simp)
      | cons st extra =>
        simp only at h
        split at h
        · next hemp =>
          simp only [Except.ok.injEq] at h
          subst h
          left
          simp_all [List.isEmpty_iff]
        · exact absurd h (by simp)
    · match hr : rest with
      | [] => simp at h
      | [a] => simp at h
      | [a, b] => simp at h
      | an :: co :: st :: extra =>
        simp only at h
        split at h
        · next hemp =>
          simp only [Except.ok.injEq] at h
          subst h
          right
          refine ⟨x, an, co, st, rfl, rfl, rfl, rfl, ?_⟩
          simp_all [List.isEmpty_iff]
        · exact absurd h (by simp)
  · exact absurd h (by simp)

/-- `mk_sig_nodes` with the default (fixed-order) attribute list, on parts
without a return annotation. -/
theorem mk_sig_nodes_noAnn (kw nm pa col st : PTree) :
    mk_sig_nodes ⟨kw, nm, pa, none, none, some col, some st⟩ none
      = .ok [kw, nm, pa, col] := rfl

/-- `mk_sig_nodes` with the default (fixed-order) attribute list, on parts
with a return annotation. -/
theorem mk_sig_nodes_ann (kw nm pa arr an col st : PTree) :
    mk_sig_nodes ⟨kw, nm, pa, some arr, some an, some col, some st⟩ none
      = .ok [kw, nm, pa, arr, an, col] := rfl

theorem if_isEmpty_getD (l : List PTree) :
    (if l.isEmpty then none else some l).getD [] = l := by
  cases l <;> rfl

theorem matchDoc_eq (doc : Option PTree) :
    (match doc with | some n => getCode n | none => "") = getCodeList doc.toList := by
  cases doc with
  | none => rfl
  | some n => simp [getCodeList]

theorem matchBody_eq (rest : List PTree) :
    (match (if rest.isEmpty then none else some rest) with
      | some ns => getCodeList ns | none => "") = getCodeList rest := by
  cases rest <;> simp [getCodeList]

/-- C5: for every function whose signature decomposition and suite walk
succeed (with the suite entry an inner node, as `parso` always produces),
the concatenation `decor ++ sig ++ doc ++ body` of the rendered, undedented
components equals the source text of the decorated definition (`hD` states
that the enclosing node `D` renders as the decorators followed by the
`funcdef`, which is how `parso` lays out a `decorated` node — and is
trivially `D = func` itself for an undecorated function), and is therefore
a contiguous slice of the full original source text. -/
theorem C5_round_trip (fuel : Nat) (func D tree : PTree) (ancestors : List PTree)
    (parts : FuncParts) (stn : String) (scs : List PTree) (codes : CodesView)
    (hp : partsOf func = .ok parts)
    (hsuite : parts.suite = some (PTree.node stn scs))
    (hcodes : codesOf fuel ancestors func = .ok codes)
    (hD : getCode D = codes.decor ++ getCode func)
    (hsub : IsSubtree D tree) :
    codes.decor ++ (codes.sig ++ (codes.doc ++ codes.body)) = getCode D ∧
    ∃ pre post, getCode tree =
      pre ++ (codes.decor ++ (codes.sig ++ (codes.doc ++ codes.body))) ++ post := by
  have hmain : codes.sig ++ (codes.doc ++ codes.body) = getCode func := by
    rcases partsOf_ok_shape hp with
      ⟨ha, hn, col, st, hc, hs, hch⟩ | ⟨arr, an, col, st, ha, hn, hc, hs, hch⟩
    · -- no-annotation shape
      obtain ⟨kw, nm, pa, arrow, annF, colon, suite⟩ := parts
      simp only at ha hn hc hs hch hsuite
      subst ha hn hc hs
      obtain rfl : st = PTree.node stn scs := Option.some.inj hsuite
      unfold codesOf at hcodes
      rw [hp] at hcodes
      simp only [PyResult.ofExcept, PyResult.bind, suiteOf, PTree.childrenOf]
        at hcodes
      cases hl : suiteLoop fuel scs [] with
      | ok v =>
        obtain ⟨nls, doc, rest⟩ := v
        rw [hl] at hcodes
        simp only [PyResult.bind, mk_sig_nodes_noAnn, PyResult.ofExcept,
          PyResult.ok.injEq] at hcodes
        subst hcodes
        have hscs : scs = nls ++ (doc.toList ++ rest) := by
          simpa using suiteLoop_ok_decomp fuel scs [] nls rest doc hl
        cases func with
        | leaf t p v => simp [PTree.childrenOf] at hch
        | node ft fcs =>
          simp only [PTree.childrenOf] at hch
          simp only [getCode, hch, if_isEmpty_getD, matchDoc_eq, matchBody_eq]
          rw [hscs]
          simp [getCodeList_append, getCodeList, getCode, String.append_assoc]
      | err m =>
        rw [hl] at hcodes
        simp [PyResult.bind] at hcodes
      | hang =>
        rw [hl] at hcodes
        simp [PyResult.bind] at hcodes
    · -- annotation shape
      obtain ⟨kw, nm, pa, arrow, annF, colon, suite⟩ := parts
      simp only at ha hn hc hs hch hsuite
      subst ha hn hc hs
      obtain rfl : st = PTree.node stn scs := Option.some.inj hsuite
      unfold codesOf at hcodes
      rw [hp] at hcodes
      simp only [PyResult.ofExcept, PyResult.bind, suiteOf, PTree.childrenOf]
        at hcodes
      cases hl : suiteLoop fuel scs [] with
      | ok v =>
        obtain ⟨nls, doc, rest⟩ := v
        rw [hl] at hcodes
        simp only [PyResult.bind, mk_sig_nodes_ann, PyResult.ofExcept,
          PyResult.ok.injEq] at hcodes
        subst hcodes
        have hscs : scs = nls ++ (doc.toList ++ rest) := by
          simpa using suiteLoop_ok_decomp fuel scs [] nls rest doc hl
        cases func with
        | leaf t p v => simp [PTree.childrenOf] at hch
        | node ft fcs =>
          simp only [PTree.childrenOf] at hch
          simp only [getCode, hch, if_isEmpty_getD, matchDoc_eq, matchBody_eq]
          rw [hscs]
          simp [getCodeList_append, getCodeList, getCode, String.append_assoc]
      | err m =>
        rw [hl] at hcodes
        simp [PyResult.bind] at hcodes
      | hang =>
        rw [hl] at hcodes
        simp [PyResult.bind] at hcodes
  refine ⟨by rw [hD, hmain], ?_⟩
  obtain ⟨pre, post, htree⟩ := getCode_of_subtree hsub
  exact ⟨pre, post, by rw [htree, hD, hmain]⟩

/-- Closed instance of C5 at the decorated `square` example: the four
rendered fragments concatenate to the `decorated` node's source text,
which is a contiguous slice of the whole parsed source. -/
theorem C5_round_trip_witness :
    "@deco\n" ++ ("def square(x) -> int:\n" ++
        ("    \"\"\"Sq.\"\"\"\n" ++ "    return x*x\n"))
      = getCode egSquareDecorated ∧
    ∃ pre post, getCode egSquareTree =
      pre ++ ("@deco\n" ++ ("def square(x) -> int:\n" ++
        ("    \"\"\"Sq.\"\"\"\n" ++ "    return x*x\n"))) ++ post :=
  C5_round_trip 10 egSquareFunc egSquareDecorated egSquareTree
    [egSquareDecorated] egSquareParts "suite"
    [lf "newline" "" "\n", egSquareDoc, egSquareRet]
    ⟨"@deco\n", "def square(x) -> int:\n", "    \"\"\"Sq.\"\"\"\n",
     "    return x*x\n"⟩
    rfl rfl rfl rfl
    (IsSubtree.step (by simp [egSquareTree, nd, PTree.childrenOf])
      (IsSubtree.refl _))

/-! ## Claim C3 — qualified names in the definition index -/

/-- A nested function definition, `parso` shape of
`        def <c>():\n            pass\n`. -/
def nestedInner (c : String) : PTree :=
  nd "funcdef"
    [lf "keyword" "        " "def", lf "name" " " c,
     nd "parameters" [lf "operator" "" "(", lf "operator" "" ")"],
     lf "operator" "" ":",
     nd "suite" [lf "newline" "" "\n",
                 nd "simple_stmt" [lf "keyword" "            " "pass",
                                   lf "newline" "" "\n"]]]

/-- A method containing the nested function, `parso` shape of
`    def <b>(self):` with `nestedInner c` as its body. -/
def nestedMethod (b c : String) : PTree :=
  nd "funcdef"
    [lf "keyword" "    " "def", lf "name" " " b,
     nd "parameters" [lf "operator" "" "(", nd "param" [lf "name" "" "self"],
                      lf "operator" "" ")"],
     lf "operator" "" ":",
     nd "suite" [lf "newline" "" "\n", nestedInner c]]

/-- A class containing the method, `parso` shape of `class <a>:`. -/
def nestedCls (a b c : String) : PTree :=
  nd "classdef"
    [lf "keyword" "" "class", lf "name" " " a, lf "operator" "" ":",
     nd "suite" [lf "newline" "" "\n", nestedMethod b c]]

/-- The module tree of
`class <a>:\n    def <b>(self):\n        def <c>():\n            pass\n`
(verified against `parso.parse` with `a,b,c = Outer,method,inner`). -/
def nestedClsTree (a b c : String) : PTree :=
  nd "file_input" [nestedCls a b c, lf "endmarker" "" ""]

/-- C3 counterexample: the claim says the definition index keys every
definition by the full chain of enclosing names, so `inner` nested in
`method` inside `Outer` would be keyed `Outer.method.inner`.  The code
recurses with each definition's **bare** name as the new prefix, so the
recorded key is `method.inner` and no `Outer.method.inner` key exists. -/
theorem C3_full_chain_key_cex :
    cls_or_func_defs 4 (nestedClsTree "Outer" "method" "inner") "" =
      some [("Outer", nestedCls "Outer" "method" "inner"),
            ("Outer.method", nestedMethod "method" "inner"),
            ("method.inner", nestedInner "inner")] ∧
    "Outer.method.inner" ∉
      ([("Outer", nestedCls "Outer" "method" "inner"),
        ("Outer.method", nestedMethod "method" "inner"),
        ("method.inner", nestedInner "inner")].map Prod.fst) :=
  ⟨rfl, by decide⟩

/-- C3, amended: the key of a definition at nesting depth ≥ 2 is its
**immediate** enclosing definition's bare name followed by its own name
(one level of qualification), because the recursion passes the child's own
name — not the child's full key — as the next prefix; top-level
definitions are keyed by bare name (module prefix empty). -/
theorem C3_qualified_key_immediate_parent (a b c : String)
    (ha : a ≠ "") (hb : b ≠ "")
    (h1 : a ≠ a ++ "." ++ b) (h2 : a ≠ b ++ "." ++ c)
    (h3 : a ++ "." ++ b ≠ b ++ "." ++ c) :
    get_cls_or_func 4 (nestedClsTree a b c) [] "" =
      some [(a, nestedCls a b c), (a ++ "." ++ b, nestedMethod b c),
            (b ++ "." ++ c, nestedInner c)] := by
  simp [get_cls_or_func, nestedClsTree, nestedCls, nestedMethod, nestedInner,
    searchInScope, scanChildren, scanInto, FUNC_CONTAINERS, nameLeafValue,
    dinsert, nd, lf, PTree.childrenOf, PTree.typeOf, PTree.valueOf,
    ha, hb, h1, h2, h3]

/-- Closed instance of the amended C3 at the names of the claim's own
example. -/
theorem C3_qualified_key_immediate_parent_witness :
    get_cls_or_func 4 (nestedClsTree "Outer" "method" "inner") [] "" =
      some [("Outer", nestedCls "Outer" "method" "inner"),
            ("Outer.method", nestedMethod "method" "inner"),
            ("method.inner", nestedInner "inner")] :=
  C3_qualified_key_immediate_parent "Outer" "method" "inner"
    (by decide) (by decide) (by decide) (by decide) (by decide)

/-! ## Claim C4 — the fixed-width dedent -/

theorem splitLinesC_ne_nil (l : List Char) : splitLinesC l ≠ [] := by
  cases l with
  | nil => simp [splitLinesC]
  | cons c cs =>
    simp only [splitLinesC]
    by_cases hc : c = '\n'
    · simp [hc]
    · rw [if_neg hc]
      rcases h : splitLinesC cs with _ | ⟨x, xs⟩ <;> simp

theorem noNl_splitLinesC (l : List Char) : ∀ x ∈ splitLinesC l, '\n' ∉ x := by
  induction l with
  | nil => intro x hx; simp [splitLinesC] at hx; simp [hx]
  | cons c cs ih =>
    intro x hx
    simp only [splitLinesC] at hx
    by_cases hc : c = '\n'
    · rw [if_pos hc] at hx
      rcases List.mem_cons.mp hx with rfl | hx
      · simp
      · exact ih x hx
    · rw [if_neg hc] at hx
      rcases h : splitLinesC cs with _ | ⟨y, ys⟩
      · exact absurd h (splitLinesC_ne_nil cs)
      · rw [h] at hx
        simp only at hx
        rcases List.mem_cons.mp hx with rfl | hx
        · intro hmem
          rcases List.mem_cons.mp hmem with h1 | h1
          · exact hc h1.symm
          · exact ih y (h ▸ List.mem_cons_self y ys) h1
        · exact ih x (h ▸ List.mem_cons_of_mem y hx)

theorem joinLinesC_splitLinesC (l : List Char) :
    joinLinesC (splitLinesC l) = l := by
  induction l with
  | nil => rfl
  | cons c cs ih =>
    simp only [splitLinesC]
    by_cases hc : c = '\n'
    · subst hc
      rw [if_pos rfl]
      rcases h : splitLinesC cs with _ | ⟨y, ys⟩
      · exact absurd h (splitLinesC_ne_nil cs)
      · rw [h] at ih
        simp [joinLinesC, ih]
    · rw [if_neg hc]
      rcases h : splitLinesC cs with _ | ⟨y, ys⟩
      · exact absurd h (splitLinesC_ne_nil cs)
      · rw [h] at ih
        cases ys with
        | nil => simpa [joinLinesC] using congrArg (c :: ·) ih
        | cons z zs => simpa [joinLinesC] using congrArg (c :: ·) ih

theorem splitLinesC_single {x : List Char} (hx : '\n' ∉ x) :
    splitLinesC x = [x] := by
  induction x with
  | nil => rfl
  | cons c cs ih =>
    have hc : c ≠ '\n' := fun h => hx (h ▸ List.mem_cons_self c cs)
    have hcs : '\n' ∉ cs := fun h => hx (List.mem_cons_of_mem c h)
    simp only [splitLinesC, if_neg hc, ih hcs]

theorem splitLinesC_append (x : List Char) (hx : '\n' ∉ x) (rest : List Char) :
    splitLinesC (x ++ '\n' :: rest) = x :: splitLinesC rest := by
  induction x with
  | nil => simp [splitLinesC]
  | cons c cs ih =>
    have hc : c ≠ '\n' := fun h => hx (h ▸ List.mem_cons_self c cs)
    have hcs : '\n' ∉ cs := fun h => hx (List.mem_cons_of_mem c h)
    simp only [List.cons_append, splitLinesC, if_neg hc, List.append_eq, ih hcs]

theorem splitLinesC_joinLinesC (L : List (List Char)) (hne : L ≠ [])
    (hnl : ∀ x ∈ L, '\n' ∉ x) : splitLinesC (joinLinesC L) = L := by
  induction L with
  | nil => exact absurd rfl hne
  | cons x xs ih =>
    cases xs with
    | nil => exact splitLinesC_single (hnl x (List.mem_cons_self x []))
    | cons y ys =>
      have hx : '\n' ∉ x := hnl x (List.mem_cons_self _ _)
      have hrec : splitLinesC (joinLinesC (y :: ys)) = y :: ys :=
        ih (by simp) (fun z hz => hnl z (List.mem_cons_of_mem x hz))
      show splitLinesC (x ++ '\n' :: joinLinesC (y :: ys)) = x :: y :: ys
      rw [splitLinesC_append x hx, hrec]

theorem pad_strip {n : Nat} {l : List Char}
    (h : (List.replicate n ' ').isPrefixOf l) :
    List.replicate n ' ' ++ l.drop n = l := by
  obtain ⟨t, ht⟩ := List.isPrefixOf_iff_prefix.mp h
  rw [← ht, List.drop_left' (by simp)]

/-- When every line of `s` starts with `n` spaces, the (spec-modelled)
fixed-width dedent strips exactly `n` characters from each line, and
re-indenting each line by `n` spaces reproduces `s` byte for byte. -/
theorem dedent_reindent (n : Nat) (s : String)
    (h : ∀ l ∈ splitLinesC s.data, (List.replicate n ' ').isPrefixOf l) :
    splitLinesC (dedent_by s n).data = (splitLinesC s.data).map (List.drop n) ∧
    reindentBy n (dedent_by s n) = s := by
  have hmap : (splitLinesC s.data).map
        (fun l => if (List.replicate n ' ').isPrefixOf l then l.drop n else l)
      = (splitLinesC s.data).map (List.drop n) :=
    List.map_congr_left (fun l hl => by rw [if_pos (h l hl)])
  have hdata : (dedent_by s n).data
      = joinLinesC ((splitLinesC s.data).map (List.drop n)) := by
    simp only [dedent_by, hmap]
  have hnl' : ∀ x ∈ (splitLinesC s.data).map (List.drop n), '\n' ∉ x := by
    intro x hx
    obtain ⟨y, hy, rfl⟩ := List.mem_map.mp hx
    exact fun hm => noNl_splitLinesC s.data y hy (List.drop_subset n y hm)
  have hne' : (splitLinesC s.data).map (List.drop n) ≠ [] := by
    simpa using splitLinesC_ne_nil s.data
  have hsplit : splitLinesC (dedent_by s n).data
      = (splitLinesC s.data).map (List.drop n) := by
    rw [hdata]
    exact splitLinesC_joinLinesC _ hne' hnl'
  refine ⟨hsplit, ?_⟩
  have hback : (splitLinesC (dedent_by s n).data).map
        (fun l => List.replicate n ' ' ++ l) = splitLinesC s.data := by
    rw [hsplit, List.map_map]
    have hid : ∀ l ∈ splitLinesC s.data,
        ((fun l => List.replicate n ' ' ++ l) ∘ List.drop n) l = l :=
      fun l hl => pad_strip (h l hl)
    rw [List.map_congr_left hid]
    simp
  show String.mk (joinLinesC _) = s
  rw [hback, joinLinesC_splitLinesC]

/-- C4 counterexample: the claim says every fragment of the dedented view
has **exactly** `indent_size` leading spaces stripped from **each** line,
and re-indenting reproduces the undedented fragment byte-for-byte.  For
the method source `"  def m(self):\n    \"\"\"D\"\"\"\n\n    return 1\n"`
(indent 2) the rendered body is `"\n    return 1\n"`: its first line is
empty (the blank line lives in the next token's prefix), so nothing can be
stripped from it, and re-indenting the dedented body by 2 yields
`"  \n    return 1\n  "`, not the original body. -/
theorem C4_fixed_dedent_cex :
    parsedFuncNtup 10 egMethodTree [egMethodTree] "m" none false false =
      .ok ⟨"", "  def m(self):\n", some "    \"\"\"D\"\"\"\n", "\n    return 1\n"⟩ ∧
    parsedFuncNtup 10 egMethodTree [egMethodTree] "m" none true false =
      .ok ⟨"", "def m(self):\n", some "  \"\"\"D\"\"\"\n", "\n  return 1\n"⟩ ∧
    indent_size "  def m(self):\n" = 2 ∧
    reindentBy 2 "\n  return 1\n" ≠ "\n    return 1\n" := by
  refine ⟨rfl, rfl, rfl, ?_⟩
  decide

/-- C4, amended: the dedent is fixed-width on the lines that carry it —
every line that begins with at least `indent_size` spaces has exactly
`indent_size` stripped, and whenever **every** line of a fragment begins
with `indent_size` spaces, re-indenting the dedented fragment by
`indent_size` reproduces the undedented fragment byte-for-byte; lines with
fewer leading spaces (blank lines, the empty line before a leading
newline) are left unchanged, which is what breaks the unconditional
claim. -/
theorem C4_dedent_fixed_width (codes : CodesView) (isz : Nat) (obj : Option PyFunc)
    (hdec : ∀ l ∈ splitLinesC codes.decor.data, (List.replicate isz ' ').isPrefixOf l)
    (hsig : ∀ l ∈ splitLinesC codes.sig.data, (List.replicate isz ' ').isPrefixOf l)
    (hdoc : ∀ l ∈ splitLinesC codes.doc.data, (List.replicate isz ' ').isPrefixOf l)
    (hbody : ∀ l ∈ splitLinesC codes.body.data, (List.replicate isz ' ').isPrefixOf l) :
    reindentBy isz (as_ntup codes isz obj true false).decor
        = (as_ntup codes isz obj false false).decor ∧
    reindentBy isz (as_ntup codes isz obj true false).sig
        = (as_ntup codes isz obj false false).sig ∧
    (as_ntup codes isz obj true false).doc = some (dedent_by codes.doc isz) ∧
    reindentBy isz (dedent_by codes.doc isz) = codes.doc ∧
    reindentBy isz (as_ntup codes isz obj true false).body
        = (as_ntup codes isz obj false false).body ∧
    splitLinesC (as_ntup codes isz obj true false).body.data
        = (splitLinesC codes.body.data).map (List.drop isz) := by
  have hdec' := dedent_reindent isz codes.decor hdec
  have hsig' := dedent_reindent isz codes.sig hsig
  have hdoc' := dedent_reindent isz codes.doc hdoc
  have hbody' := dedent_reindent isz codes.body hbody
  cases obj <;>
    simp [as_ntup, hdec'.2, hsig'.2, hdoc'.2, hbody'.1, hbody'.2]

/-- Closed instance of the amended C4 on fragments whose every line starts
with two spaces. -/
theorem C4_dedent_fixed_width_witness :
    reindentBy 2 (as_ntup ⟨"  @d", "  def f():", "  doc", "  x = 1"⟩ 2 none true false).decor
        = (as_ntup ⟨"  @d", "  def f():", "  doc", "  x = 1"⟩ 2 none false false).decor ∧
    reindentBy 2 (as_ntup ⟨"  @d", "  def f():", "  doc", "  x = 1"⟩ 2 none true false).sig
        = (as_ntup ⟨"  @d", "  def f():", "  doc", "  x = 1"⟩ 2 none false false).sig ∧
    (as_ntup ⟨"  @d", "  def f():", "  doc", "  x = 1"⟩ 2 none true false).doc
        = some (dedent_by "  doc" 2) ∧
    reindentBy 2 (dedent_by "  doc" 2) = "  doc" ∧
    reindentBy 2 (as_ntup ⟨"  @d", "  def f():", "  doc", "  x = 1"⟩ 2 none true false).body
        = (as_ntup ⟨"  @d", "  def f():", "  doc", "  x = 1"⟩ 2 none false false).body ∧
    splitLinesC (as_ntup ⟨"  @d", "  def f():", "  doc", "  x = 1"⟩ 2 none true false).body.data
        = (splitLinesC ("  x = 1" : String).data).map (List.drop 2) :=
  C4_dedent_fixed_width ⟨"  @d", "  def f():", "  doc", "  x = 1"⟩ 2 none
    (by decide) (by decide) (by decide) (by decide)

/-! ## Claim C10 — `use_doc_attr` with a docstring-less callable -/

/-- C10: when the stored callable's `__doc__` is `None`,
`as_ntup(use_doc_attr=True)` returns a tuple whose `doc` field is `None`
(for either value of `dedent`, since the attribute is copied verbatim
after the dedent loop and so bypasses dedenting), while the `decor`,
`sig` and `body` fields are the same strings as without the override. -/
theorem C10_doc_attr_none (codes : CodesView) (isz : Nat) (o : PyFunc)
    (hdoc : o.doc = none) (b : Bool) :
    (as_ntup codes isz (some o) b true).doc = none ∧
    (as_ntup codes isz (some o) b true).decor
        = (as_ntup codes isz (some o) b false).decor ∧
    (as_ntup codes isz (some o) b true).sig
        = (as_ntup codes isz (some o) b false).sig ∧
    (as_ntup codes isz (some o) b true).body
        = (as_ntup codes isz (some o) b false).body := by
  simp [as_ntup, hdoc]

/-- Closed instance of C10 on the `square` codes with a `__doc__`-less
callable, dedenting enabled. -/
theorem C10_doc_attr_none_witness :
    (as_ntup ⟨"@deco\n", "def square(x) -> int:\n", "    \"\"\"Sq.\"\"\"\n",
        "    return x*x\n"⟩ 0
      (some ⟨"square", "def square(x) -> int:\n    return x*x\n", none⟩)
      true true).doc = none ∧
    (as_ntup ⟨"@deco\n", "def square(x) -> int:\n", "    \"\"\"Sq.\"\"\"\n",
        "    return x*x\n"⟩ 0
      (some ⟨"square", "def square(x) -> int:\n    return x*x\n", none⟩)
      true true).decor
        = (as_ntup ⟨"@deco\n", "def square(x) -> int:\n", "    \"\"\"Sq.\"\"\"\n",
            "    return x*x\n"⟩ 0
          (some ⟨"square", "def square(x) -> int:\n    return x*x\n", none⟩)
          true false).decor ∧
    (as_ntup ⟨"@deco\n", "def square(x) -> int:\n", "    \"\"\"Sq.\"\"\"\n",
        "    return x*x\n"⟩ 0
      (some ⟨"square", "def square(x) -> int:\n    return x*x\n", none⟩)
      true true).sig
        = (as_ntup ⟨"@deco\n", "def square(x) -> int:\n", "    \"\"\"Sq.\"\"\"\n",
            "    return x*x\n"⟩ 0
          (some ⟨"square", "def square(x) -> int:\n    return x*x\n", none⟩)
          true false).sig ∧
    (as_ntup ⟨"@deco\n", "def square(x) -> int:\n", "    \"\"\"Sq.\"\"\"\n",
        "    return x*x\n"⟩ 0
      (some ⟨"square", "def square(x) -> int:\n    return x*x\n", none⟩)
      true true).body
        = (as_ntup ⟨"@deco\n", "def square(x) -> int:\n", "    \"\"\"Sq.\"\"\"\n",
            "    return x*x\n"⟩ 0
          (some ⟨"square", "def square(x) -> int:\n    return x*x\n", none⟩)
          true false).body :=
  C10_doc_attr_none _ 0 _ rfl true
